import Mathlib

/-!
Verification of the mcpd-proxy aggregation and namespacing layer.

Strings are modelled as `List Char`; the JavaScript string operations used by
the source (`split`, `join`, `startsWith`, `substring`, `indexOf`) are
translated to explicit list functions with the same semantics.
-/

set_option maxRecDepth 8000

deriving instance DecidableEq for Except

namespace McpdProxy

/-- Convert a Lean string literal to the `List Char` representation used
throughout this development. -/
def chars (s : String) : List Char :=
  s.toList

/-- The namespace separator `"__"` used by the `server__name` encoding. -/
def sep : List Char := ['_', '_']

/-- JavaScript `fullName.split("__")`: leftmost, non-overlapping splitting on
the two-character separator.  `splitUS []` is `[[]]`, matching
`"".split("__") == [""]`. -/
def splitUS : List Char → List (List Char)
  | [] => [[]]
  | [c] => [[c]]
  | c :: d :: rest =>
    if c = '_' ∧ d = '_' then
      [] :: splitUS rest
    else
      match splitUS (d :: rest) with
      | [] => [[c]]
      | p :: ps => (c :: p) :: ps

/-- JavaScript `parts.join(s)`: interleave the separator `s` between the
pieces. -/
def joinWith (s : List Char) : List (List Char) → List Char
  | [] => []
  | [p] => p
  | p :: q :: ps => p ++ s ++ joinWith s (q :: ps)

/-- The error message thrown by `parsePrefixedName` (source:
`Invalid ${type} name format: ${fullName}. Expected format: server__${type}_name`). -/
def invalidNameMsg (fullName typ : List Char) : List Char :=
  chars "Invalid " ++ typ ++ chars " name format: " ++ fullName
    ++ chars ". Expected format: server__" ++ typ ++ chars "_name"

/-- Result of `parsePrefixedName`: the `{ server, name }` object. -/
structure ParsedName where
  server : List Char
  name : List Char
deriving DecidableEq, Repr

/-- Source `parsePrefixedName(fullName, type)` from `src/server.ts` (identical in all
versions of the file): split on `"__"`, fail when fewer than two parts result,
otherwise take the first part as `server` and the `"__"`-rejoin of the rest as
`name`.  The thrown `Error` is modelled as `Except.error` carrying the message. -/
def parsePrefixedName (fullName typ : List Char) : Except (List Char) ParsedName :=
  let parts := splitUS fullName
  if parts.length < 2 then
    .error (invalidNameMsg fullName typ)
  else
    .ok ⟨parts.headD [], joinWith sep (parts.drop 1)⟩

/-- The two distinguishable failure kinds of `parseResourceUri`:
`invalidFormat` is the `Expected format: mcpd://server/uri` message,
`missingPath` is the `Missing path after server name` message. -/
inductive UriError where
  | invalidFormat
  | missingPath
deriving DecidableEq, Repr

/-- Result of `parseResourceUri`: the `{ server, originalUri }` object. -/
structure ParsedUri where
  server : List Char
  originalUri : List Char
deriving DecidableEq, Repr

/-- JavaScript `s.indexOf("/")`, with `-1` modelled as `none`. -/
def indexOfSlash : List Char → Option Nat
  | [] => none
  | c :: rest => if c = '/' then some 0 else (indexOfSlash rest).map (· + 1)

/-- Source `parseResourceUri(uri)` from the substring-based version of the source
(`src/server.ts` in `part_007`): require the `mcpd://` prefix, strip the first
7 characters, split at the first `/`, and reject an empty server component. -/
def parseResourceUri (uri : List Char) : Except UriError ParsedUri :=
  if (chars "mcpd://").isPrefixOf uri then
    let withoutScheme := uri.drop 7
    match indexOfSlash withoutScheme with
    | none => .error .missingPath
    | some slashIndex =>
      let server := withoutScheme.take slashIndex
      let originalUri := withoutScheme.drop (slashIndex + 1)
      if server = [] then .error .missingPath
      else .ok ⟨server, originalUri⟩
  else .error .invalidFormat

/-- The older `parseResourceUri` variant from `src/src/server.ts`, which lacks
the empty-server check. -/
def parseResourceUriLegacy (uri : List Char) : Except UriError ParsedUri :=
  if (chars "mcpd://").isPrefixOf uri then
    let withoutScheme := uri.drop 7
    match indexOfSlash withoutScheme with
    | none => .error .missingPath
    | some slashIndex =>
      .ok ⟨withoutScheme.take slashIndex, withoutScheme.drop (slashIndex + 1)⟩
  else .error .invalidFormat

/-- The `mcpd://${serverName}/${resource.uri}` template literal used by
`aggregateResources` to build namespaced resource URIs. -/
def encodeResourceUri (serverName uri : List Char) : List Char :=
  chars "mcpd://" ++ serverName ++ chars "/" ++ uri

/-! ### Data model of the aggregation layer (from `part_006` of the source) -/

/-- One entry of the health map returned by `client.getServerHealth()`:
an object with (at least) `name` and `status` fields. -/
structure ServerHealth where
  name : List Char
  status : List Char
deriving DecidableEq, Repr

/-- A backend tool as returned by `client.servers[s].getTools()`.  The
`unknown`-typed `inputSchema` is modelled as its serialized text. -/
structure Tool where
  name : List Char
  description : Option (List Char)
  inputSchema : List Char
deriving DecidableEq, Repr

/-- One prompt argument descriptor. -/
structure PromptArgument where
  name : List Char
  description : Option (List Char)
  required : Option Bool
deriving DecidableEq, Repr

/-- A backend prompt as returned by `client.servers[s].getPrompts()`. -/
structure Prompt where
  name : List Char
  description : Option (List Char)
  arguments : Option (List PromptArgument)
deriving DecidableEq, Repr

/-- A backend resource as returned by `client.servers[s].getResources()`. -/
structure Resource where
  uri : List Char
  name : List Char
  description : Option (List Char)
  mimeType : Option (List Char)
deriving DecidableEq, Repr

/-- An aggregated resource: the namespaced resource plus the auxiliary
`_serverName` and `_originalUri` metadata added by `aggregateResources`. -/
structure AggregatedResource where
  uri : List Char
  name : List Char
  description : Option (List Char)
  mimeType : Option (List Char)
  _serverName : List Char
  _originalUri : List Char
deriving DecidableEq, Repr

/-- A backend resource template as returned by
`client.servers[s].getResourceTemplates()`. -/
structure ResourceTemplate where
  uriTemplate : List Char
  name : List Char
  description : Option (List Char)
  mimeType : Option (List Char)
deriving DecidableEq, Repr

/-- A rejected per-server listing promise (`Promise.allSettled` rejection),
carrying its reason. -/
inductive SettledErr where
  | rejected (reason : List Char)
deriving DecidableEq, Repr

/-- One field-level validation error of the mcpd API (`ErrorModel.errors`). -/
structure ApiError where
  location : List Char
  message : List Char
deriving DecidableEq, Repr

/-- The mcpd API error model carried by `ToolExecutionError` (only the
`errors` field is read by the handler). -/
structure ErrorModel where
  errors : Option (List ApiError)
deriving DecidableEq, Repr

/-- The closed taxonomy of typed SDK errors dispatched by the tools/call
handler's `instanceof` chain, plus a generic `other` arm for plain `Error`s. -/
inductive McpdError where
  | toolNotFound
  | toolExecutionError (message : List Char) (errorModel : Option ErrorModel)
  | serverNotFound
  | serverUnhealthy
  | connectionError
  | authenticationError
  | timeoutError
  | other (message : List Char)
deriving DecidableEq, Repr

/-- The structured tools/call response: a single textual content payload plus
the `isError` flag (absent on success, modelled as `false`). -/
structure ToolCallResponse where
  text : List Char
  isError : Bool
deriving DecidableEq, Repr

/-- The `McpdClient` collaborator as the aggregation layer sees it:
`listServers()` and `getServerHealth()` results, the per-server listing
methods `client.servers[s].getX()` (each an already-settled outcome), and
`client.servers[s].callTool(name, args)` whose successful result is modelled
as its `JSON.stringify` text. -/
structure McpdClient where
  serverList : List (List Char)
  healthMap : List (List Char × ServerHealth)
  getTools : List Char → Except SettledErr (List Tool)
  getPrompts : List Char → Except SettledErr (List Prompt)
  getResources : List Char → Except SettledErr (List Resource)
  getResourceTemplates : List Char → Except SettledErr (List ResourceTemplate)
  callTool : List Char → List Char → Except McpdError (List Char)

/-- Source `getHealthyServers(client, serverNames?)` from `part_006`: candidates are
the explicit list when supplied (`serverNames ?? await client.listServers()`),
then filtered to those whose recorded health status is exactly `"ok"`. -/
def getHealthyServers (client : McpdClient)
    (serverNames : Option (List (List Char))) : List (List Char) :=
  let servers := serverNames.getD client.serverList
  servers.filter (fun name =>
    match client.healthMap.lookup name with
    | some health => health.status == chars "ok"
    | none => false)

/-- Source `aggregateTools(client, serverNames?)`: fan out to every healthy server
(`Promise.allSettled`), keep the fulfilled results, and namespace each tool
name as `${serverName}__${tool.name}`. -/
def aggregateTools (client : McpdClient)
    (serverNames : Option (List (List Char))) : List Tool :=
  let healthyServers := getHealthyServers client serverNames
  let results := healthyServers.map
    (fun serverName => (client.getTools serverName).map (fun tools => (serverName, tools)))
  (results.filterMap Except.toOption).flatMap
    (fun r => r.2.map (fun tool => { tool with name := r.1 ++ sep ++ tool.name }))

/-- Source `aggregatePrompts(client, serverNames?)`: as `aggregateTools`, for
prompts. -/
def aggregatePrompts (client : McpdClient)
    (serverNames : Option (List (List Char))) : List Prompt :=
  let healthyServers := getHealthyServers client serverNames
  let results := healthyServers.map
    (fun serverName => (client.getPrompts serverName).map (fun prompts => (serverName, prompts)))
  (results.filterMap Except.toOption).flatMap
    (fun r => r.2.map (fun prompt => { prompt with name := r.1 ++ sep ++ prompt.name }))

/-- Source `aggregateResources(client, serverNames?)`: as `aggregateTools`, but also
rewriting `uri` to `mcpd://${serverName}/${resource.uri}` and carrying the
auxiliary `_serverName` / `_originalUri` fields. -/
def aggregateResources (client : McpdClient)
    (serverNames : Option (List (List Char))) : List AggregatedResource :=
  let healthyServers := getHealthyServers client serverNames
  let results := healthyServers.map
    (fun serverName => (client.getResources serverName).map (fun resources => (serverName, resources)))
  (results.filterMap Except.toOption).flatMap
    (fun r => r.2.map (fun resource =>
      { uri := encodeResourceUri r.1 resource.uri
        name := r.1 ++ sep ++ resource.name
        description := resource.description
        mimeType := resource.mimeType
        _serverName := r.1
        _originalUri := resource.uri }))

/-- Source `aggregateResourceTemplates(client, serverNames?)`: as `aggregateTools`,
for resource templates. -/
def aggregateResourceTemplates (client : McpdClient)
    (serverNames : Option (List (List Char))) : List ResourceTemplate :=
  let healthyServers := getHealthyServers client serverNames
  let results := healthyServers.map
    (fun serverName => (client.getResourceTemplates serverName).map
      (fun templates => (serverName, templates)))
  (results.filterMap Except.toOption).flatMap
    (fun r => r.2.map (fun template => { template with name := r.1 ++ sep ++ template.name }))

/-- The contribution of one server to an aggregate: the namespaced items of a
fulfilled listing, nothing for a rejected one.  Used to state what the four
aggregate functions compute. -/
def perServerItems {β γ : Type} (f : List Char → Except SettledErr (List β))
    (g : List Char → β → γ) (s : List Char) : List γ :=
  match f s with
  | .ok xs => xs.map (fun x => g s x)
  | .error _ => []

/-- The namespacing applied to one tool of server `s`. -/
def namespaceTool (s : List Char) (tool : Tool) : Tool :=
  { tool with name := s ++ sep ++ tool.name }

/-- The namespacing applied to one prompt of server `s`. -/
def namespacePrompt (s : List Char) (prompt : Prompt) : Prompt :=
  { prompt with name := s ++ sep ++ prompt.name }

/-- The namespacing applied to one resource of server `s`: name and uri are
rewritten, the auxiliary metadata added, everything else spread through. -/
def namespaceResource (s : List Char) (resource : Resource) : AggregatedResource :=
  { uri := encodeResourceUri s resource.uri
    name := s ++ sep ++ resource.name
    description := resource.description
    mimeType := resource.mimeType
    _serverName := s
    _originalUri := resource.uri }

/-- The namespacing applied to one resource template of server `s`. -/
def namespaceTemplate (s : List Char) (template : ResourceTemplate) : ResourceTemplate :=
  { template with name := s ++ sep ++ template.name }

/-- The `catch` block of the `CallToolRequestSchema` handler: the
`instanceof` dispatch mapping each typed error to its fixed diagnostic text,
with the `isError` flag set; the final arm is the generic fallback for plain
`Error`s. -/
def translateToolError (fullToolName : List Char) : McpdError → ToolCallResponse
  | .toolNotFound =>
      ⟨chars "Tool '" ++ fullToolName
        ++ chars "' not found. Run the tools/list request to see available tools.", true⟩
  | .toolExecutionError msg errorModel =>
      let base := chars "Tool '" ++ fullToolName ++ chars "' execution failed: " ++ msg
      let message :=
        match errorModel with
        | some model =>
          match model.errors with
          | some errs =>
            if 0 < errs.length then
              base ++ chars "\n\nValidation errors:\n"
                ++ joinWith (chars "\n")
                    (errs.map (fun e => chars "  " ++ e.location ++ chars ": " ++ e.message))
            else base
          | none => base
        | none => base
      ⟨message, true⟩
  | .serverNotFound =>
      ⟨chars "Tool '" ++ fullToolName
        ++ chars "' is not available. The underlying service may have been removed or is not configured.",
        true⟩
  | .serverUnhealthy =>
      ⟨chars "Tool '" ++ fullToolName
        ++ chars "' is temporarily unavailable. Please try again later.", true⟩
  | .connectionError =>
      ⟨chars "Cannot connect to mcpd daemon. Please ensure mcpd is running and accessible.", true⟩
  | .authenticationError =>
      ⟨chars "Authentication failed. Please check your MCPD_API_KEY configuration.", true⟩
  | .timeoutError =>
      ⟨chars "Tool '" ++ fullToolName
        ++ chars "' execution timed out. The operation may be taking too long. Please try again.",
        true⟩
  | .other msg =>
      ⟨chars "Error executing tool '" ++ fullToolName ++ chars "': " ++ msg, true⟩

/-- The `CallToolRequestSchema` handler of `part_006`: parse the namespaced
name, forward to `client.servers[server].callTool`, wrap a success as a
textual content payload, and translate every thrown error — the plain
`Error` thrown by `parsePrefixedName` lands in the generic fallback arm. -/
def handleCallTool (client : McpdClient) (fullToolName : List Char) : ToolCallResponse :=
  match parsePrefixedName fullToolName (chars "tool") with
  | .error msg => translateToolError fullToolName (.other msg)
  | .ok parsed =>
    match client.callTool parsed.server parsed.name with
    | .ok result => ⟨result, false⟩
    | .error e => translateToolError fullToolName e

/-- A concrete client for witnesses: servers `A` (ok), `B` (timeout) and `C`
(ok); `A`'s listings resolve with one item each, every other server's
listings reject; `callTool` on server `git` fails with a
`ToolExecutionError` carrying one field error, and succeeds elsewhere. -/
def sampleClient : McpdClient where
  serverList := [chars "A", chars "B", chars "C"]
  healthMap :=
    [(chars "A", ⟨chars "A", chars "ok"⟩),
     (chars "B", ⟨chars "B", chars "timeout"⟩),
     (chars "C", ⟨chars "C", chars "ok"⟩)]
  getTools := fun s =>
    if s = chars "A" then .ok [⟨chars "t1", some (chars "Tool 1"), chars "schema1"⟩]
    else .error (.rejected (chars "boom"))
  getPrompts := fun s =>
    if s = chars "A" then .ok [⟨chars "p1", none, some [⟨chars "arg1", none, some true⟩]⟩]
    else .error (.rejected (chars "boom"))
  getResources := fun s =>
    if s = chars "A" then
      .ok [⟨chars "file:///test.txt", chars "test_file", some (chars "A test file"),
        some (chars "text/plain")⟩]
    else .error (.rejected (chars "boom"))
  getResourceTemplates := fun s =>
    if s = chars "A" then .ok [⟨chars "file:///tpl", chars "tpl", none, none⟩]
    else .error (.rejected (chars "boom"))
  callTool := fun s _ =>
    if s = chars "git" then
      .error (.toolExecutionError (chars "boom")
        (some ⟨some [⟨chars "body.x", chars "required"⟩]⟩))
    else .ok (chars "ok-result")

/-! ### Properties of the `"__"` splitting -/

theorem splitUS_ne_nil (s : List Char) : splitUS s ≠ [] := by
  induction s using splitUS.induct with
  | case1 => simp [splitUS]
  | case2 c => simp [splitUS]
  | case3 c d rest h ih => simp [splitUS, h]
  | case4 c d rest h heq ih => simp [splitUS, h, heq]
  | case5 c d rest h p ps heq ih => simp [splitUS, h, heq]

theorem splitUS_sep_cons (rest : List Char) :
    splitUS ('_' :: '_' :: rest) = [] :: splitUS rest := by
  simp [splitUS]

theorem splitUS_cons_of_ne (c d : Char) (rest p : List Char) (ps : List (List Char))
    (h : ¬(c = '_' ∧ d = '_')) (hs : splitUS (d :: rest) = p :: ps) :
    splitUS (c :: d :: rest) = (c :: p) :: ps := by
  simp [splitUS, h, hs]

theorem joinWith_splitUS (s : List Char) : joinWith sep (splitUS s) = s := by
  induction s using splitUS.induct with
  | case1 => rfl
  | case2 c => rfl
  | case3 c d rest h ih =>
    obtain ⟨hc, hd⟩ := h
    subst hc; subst hd
    rw [splitUS_sep_cons]
    obtain ⟨p, ps, hps⟩ : ∃ p ps, splitUS rest = p :: ps := by
      cases hsp : splitUS rest with
      | nil => exact absurd hsp (splitUS_ne_nil rest)
      | cons p ps => exact ⟨p, ps, rfl⟩
    rw [hps] at ih ⊢
    show [] ++ sep ++ joinWith sep (p :: ps) = '_' :: '_' :: rest
    rw [ih]
    simp [sep]
  | case4 c d rest h heq ih => exact absurd heq (splitUS_ne_nil _)
  | case5 c d rest h p ps heq ih =>
    rw [splitUS_cons_of_ne c d rest p ps h heq]
    rw [heq] at ih
    cases ps with
    | nil =>
      show c :: p = c :: d :: rest
      have : p = d :: rest := ih
      rw [this]
    | cons q ps' =>
      show (c :: p) ++ sep ++ joinWith sep (q :: ps') = c :: d :: rest
      have : p ++ sep ++ joinWith sep (q :: ps') = d :: rest := ih
      rw [← this]
      simp

theorem not_sep_isInfix_nil : ¬ List.IsInfix sep [] := by decide

theorem not_sep_isInfix_single (c : Char) : ¬ List.IsInfix sep [c] := by
  rintro ⟨l, r, hl⟩
  have := congrArg List.length hl
  simp [sep] at this
  omega

theorem sep_isInfix_cons_iff (c d : Char) (rest : List Char) (h : ¬(c = '_' ∧ d = '_')) :
    List.IsInfix sep (c :: d :: rest) ↔ List.IsInfix sep (d :: rest) := by
  constructor
  · rintro ⟨l, r, hl⟩
    cases l with
    | nil =>
      exfalso
      apply h
      simp [sep] at hl
      exact ⟨hl.1.symm, hl.2.1.symm⟩
    | cons a l' =>
      simp only [List.cons_append] at hl
      exact ⟨l', r, (List.cons.injEq _ _ _ _).mp hl |>.2⟩
  · rintro ⟨l, r, hl⟩
    exact ⟨c :: l, r, by simp [hl]⟩

theorem two_le_splitUS_length_iff (s : List Char) :
    2 ≤ (splitUS s).length ↔ List.IsInfix sep s := by
  induction s using splitUS.induct with
  | case1 => simp [splitUS, sep]
  | case2 c =>
    simp [splitUS]
    simpa [sep] using not_sep_isInfix_single c
  | case3 c d rest h ih =>
    obtain ⟨hc, hd⟩ := h
    subst hc; subst hd
    rw [splitUS_sep_cons]
    constructor
    · intro _
      exact ⟨[], rest, by simp [sep]⟩
    · intro _
      have := splitUS_ne_nil rest
      cases hsp : splitUS rest with
      | nil => exact absurd hsp this
      | cons p ps => simp [hsp]
  | case4 c d rest h heq ih => exact absurd heq (splitUS_ne_nil _)
  | case5 c d rest h p ps heq ih =>
    rw [splitUS_cons_of_ne c d rest p ps h heq, sep_isInfix_cons_iff c d rest h, ← ih, heq]
    simp

theorem splitUS_append_sep (server s : List Char) :
    ¬ List.IsInfix sep server → server.getLast? ≠ some '_' →
    splitUS (server ++ sep ++ s) = server :: splitUS s := by
  induction server with
  | nil =>
    intro _ _
    show splitUS ('_' :: '_' :: s) = [] :: splitUS s
    exact splitUS_sep_cons s
  | cons c s' ih =>
    intro h1 h2
    cases s' with
    | nil =>
      have hc : c ≠ '_' := by simpa using h2
      show splitUS (c :: '_' :: '_' :: s) = [c] :: splitUS s
      rw [splitUS_cons_of_ne c '_' ('_' :: s) [] (splitUS s) (by simp [hc])
        (splitUS_sep_cons s)]
    | cons d s'' =>
      by_cases hcd : c = '_' ∧ d = '_'
      · exfalso
        apply h1
        obtain ⟨hc, hd⟩ := hcd
        subst hc; subst hd
        exact ⟨[], s'', by simp [sep]⟩
      · have h1' : ¬ List.IsInfix sep (d :: s'') := by
          rw [← sep_isInfix_cons_iff c d s'' hcd]; exact h1
        have h2' : (d :: s'').getLast? ≠ some '_' := by
          rwa [List.getLast?_cons_cons] at h2
        have ihs : splitUS ((d :: s'') ++ sep ++ s) = (d :: s'') :: splitUS s := ih h1' h2'
        have hform : (c :: d :: s'') ++ sep ++ s = c :: d :: (s'' ++ sep ++ s) := by simp
        have hform2 : (d :: s'') ++ sep ++ s = d :: (s'' ++ sep ++ s) := by simp
        rw [hform2] at ihs
        rw [hform, splitUS_cons_of_ne c d (s'' ++ sep ++ s) (d :: s'') (splitUS s) hcd ihs]

theorem splitUS_head_min (s : List Char) : ∀ (p : List Char) (ps : List (List Char)),
    splitUS s = p :: ps → ∀ (pre rest : List Char), s = pre ++ sep ++ rest →
    p.length ≤ pre.length := by
  induction s using splitUS.induct with
  | case1 =>
    intro p ps _ pre rest hdec
    have := congrArg List.length hdec
    simp [sep] at this
    omega
  | case2 c =>
    intro p ps _ pre rest hdec
    have := congrArg List.length hdec
    simp [sep] at this
    omega
  | case3 c d rest' h ih =>
    intro p ps hs pre rest hdec
    obtain ⟨hc, hd⟩ := h
    subst hc; subst hd
    rw [splitUS_sep_cons] at hs
    have hp : p = [] := ((List.cons.injEq _ _ _ _).mp hs).1.symm
    simp [hp]
  | case4 c d rest' h heq ih => exact fun p ps _ _ _ _ => absurd heq (splitUS_ne_nil _)
  | case5 c d rest' h p' ps' heq ih =>
    intro p ps hs pre rest hdec
    rw [splitUS_cons_of_ne c d rest' p' ps' h heq] at hs
    obtain ⟨hp, _⟩ := (List.cons.injEq _ _ _ _).mp hs
    cases pre with
    | nil =>
      exfalso
      apply h
      simp [sep] at hdec
      exact ⟨hdec.1, hdec.2.1⟩
    | cons a pre' =>
      simp only [List.cons_append] at hdec
      obtain ⟨_, hdec'⟩ := (List.cons.injEq _ _ _ _).mp hdec
      have := ih p' ps' heq pre' rest hdec'
      rw [← hp]
      simp only [List.length_cons]
      omega

/-- Shared unfolding: with no separator present the parse fails with the
invalid format message. -/
theorem parsePrefixedName_error_of_no_sep (typ s : List Char)
    (h : ¬ List.IsInfix sep s) :
    parsePrefixedName s typ = .error (invalidNameMsg s typ) := by
  have hlen : (splitUS s).length < 2 := by
    by_contra hge
    exact h ((two_le_splitUS_length_iff s).mp (Nat.le_of_not_lt hge))
  simp [parsePrefixedName, hlen]

/-- Shared unfolding: with at least two parts the parse succeeds on the head
and the rejoined tail. -/
theorem parsePrefixedName_ok_of_split (typ s p q : List Char) (ps : List (List Char))
    (hs : splitUS s = p :: q :: ps) :
    parsePrefixedName s typ = .ok ⟨p, joinWith sep (q :: ps)⟩ := by
  simp [parsePrefixedName, hs]

/-! ### Properties of the URI parsing -/

theorem isPrefixOf_append_self (l r : List Char) : l.isPrefixOf (l ++ r) = true := by
  induction l with
  | nil => simp [List.isPrefixOf]
  | cons c l ih => simp [List.isPrefixOf, ih]

theorem drop_scheme (rest : List Char) : (chars "mcpd://" ++ rest).drop 7 = rest := rfl

theorem indexOfSlash_eq_none (s : List Char) (h : '/' ∉ s) : indexOfSlash s = none := by
  induction s with
  | nil => rfl
  | cons c rest ih =>
    have hc : ¬ c = '/' := fun hc => h (by simp [hc])
    simp [indexOfSlash, hc, ih (fun hm => h (List.mem_cons_of_mem _ hm))]

theorem indexOfSlash_append (s u : List Char) (h : '/' ∉ s) :
    indexOfSlash (s ++ '/' :: u) = some s.length := by
  induction s with
  | nil => simp [indexOfSlash]
  | cons c rest ih =>
    have hc : ¬ c = '/' := fun hc => h (by simp [hc])
    simp [indexOfSlash, hc, ih (fun hm => h (List.mem_cons_of_mem _ hm))]

theorem take_length_append (s u : List Char) : (s ++ u).take s.length = s := by
  induction s with
  | nil => rfl
  | cons c rest ih => simp [ih]

theorem drop_length_succ_append (s u : List Char) (c : Char) :
    (s ++ c :: u).drop (s.length + 1) = u := by
  induction s with
  | nil => rfl
  | cons a rest ih => simp [ih]

/-- Claim C1 (counterexample): the substring-based `parseResourceUri` (both the
`part_007` version and the older `src/server.ts` variant) accepts
`"mcpd://server/"`, whose decoded `originalUri` is empty, returning
`{server := "server", originalUri := ""}` instead of failing. -/
theorem parseResourceUri_accepts_empty_originalUri :
    parseResourceUri (chars "mcpd://server/") = .ok ⟨chars "server", []⟩
  ∧ parseResourceUriLegacy (chars "mcpd://server/") = .ok ⟨chars "server", []⟩ := by
  decide

/-- Claim C1 (amended): for every input, `parseResourceUri` fails with a
format error when the input does not begin with `mcpd://`, and fails with a
missing-path error when no `/` follows the authority or when the decoded
`server` component would be empty (as in `mcpd:///path`); in every such case
no `{server, originalUri}` pair is returned.  (An empty `originalUri`, as in
`mcpd://server/`, is accepted.) -/
theorem parseResourceUri_failure_cases :
    (∀ uri : List Char, (chars "mcpd://").isPrefixOf uri = false →
      parseResourceUri uri = .error .invalidFormat)
  ∧ (∀ rest : List Char, '/' ∉ rest →
      parseResourceUri (chars "mcpd://" ++ rest) = .error .missingPath)
  ∧ (∀ p : List Char,
      parseResourceUri (chars "mcpd://" ++ '/' :: p) = .error .missingPath) := by
  refine ⟨?_, ?_, ?_⟩
  · intro uri h
    simp [parseResourceUri, h]
  · intro rest h
    simp [parseResourceUri, isPrefixOf_append_self, drop_scheme, indexOfSlash_eq_none rest h]
  · intro p
    simp [parseResourceUri, isPrefixOf_append_self, drop_scheme, indexOfSlash]

/-- Witness for C1's amended theorem at concrete inputs. -/
theorem parseResourceUri_failure_cases_witness :
    parseResourceUri (chars "http://x/y") = .error .invalidFormat
  ∧ parseResourceUri (chars "mcpd://server") = .error .missingPath
  ∧ parseResourceUri (chars "mcpd:///path") = .error .missingPath := by
  refine ⟨parseResourceUri_failure_cases.1 (chars "http://x/y") (by decide), ?_, ?_⟩
  · have h := parseResourceUri_failure_cases.2.1 (chars "server") (by decide)
    exact h
  · have h := parseResourceUri_failure_cases.2.2 (chars "path")
    exact h

/-- Claim C4: round-trip of the resource-URI namespacing.  For every non-empty
`server` containing no `/` and every non-empty `uri`, decoding the encoded
URI `mcpd://server/uri` recovers the pair verbatim, even when `uri` itself
contains a scheme and further slashes. -/
theorem parseResourceUri_encodeResourceUri (server uri : List Char)
    (h1 : server ≠ []) (h2 : '/' ∉ server) (_h3 : uri ≠ []) :
    parseResourceUri (encodeResourceUri server uri) = .ok ⟨server, uri⟩ := by
  have hform : encodeResourceUri server uri = chars "mcpd://" ++ (server ++ '/' :: uri) := by
    simp [encodeResourceUri, chars]
  rw [hform]
  simp [parseResourceUri, isPrefixOf_append_self, drop_scheme,
    indexOfSlash_append server uri h2, take_length_append server ('/' :: uri),
    drop_length_succ_append server uri '/',
    show server ++ '/' :: uri = server ++ ('/' :: uri) from rfl, h1]

/-- Witness for C4 at a concrete input whose inner URI contains `://`. -/
theorem parseResourceUri_encodeResourceUri_witness :
    parseResourceUri (encodeResourceUri (chars "github") (chars "file:///readme.md"))
      = .ok ⟨chars "github", chars "file:///readme.md"⟩ :=
  parseResourceUri_encodeResourceUri (chars "github") (chars "file:///readme.md")
    (by decide) (by decide) (by decide)

/-! ### Claim theorems for the name codec -/

/-- Claim C2 (counterexample): with `server = "a_"` (which contains no `__`)
and `localName = "_b"`, the encoded name `"a____b"` does not decode back to
the original pair — the trailing `_` of the server merges with the separator,
so the decoder returns `{server := "a", name := "__b"}` instead. -/
theorem parsePrefixedName_roundtrip_counterexample :
    parsePrefixedName (chars "a_" ++ sep ++ chars "_b") (chars "tool")
        = .ok ⟨chars "a", chars "__b"⟩
  ∧ parsePrefixedName (chars "a_" ++ sep ++ chars "_b") (chars "tool")
        ≠ .ok ⟨chars "a_", chars "_b"⟩ := by
  decide

/-- Claim C2 (amended): for every `server` containing no occurrence of `__`
and not ending with the character `_`, and every `localName` containing zero
or more occurrences of `__`, decoding the encoded name recovers the original
pair: `parsePrefixedName (server ++ "__" ++ localName) = {server, localName}`. -/
theorem parsePrefixedName_roundtrip (typ server localName : List Char)
    (h1 : ¬ List.IsInfix sep server) (h2 : server.getLast? ≠ some '_') :
    parsePrefixedName (server ++ sep ++ localName) typ = .ok ⟨server, localName⟩ := by
  have hsplit : splitUS (server ++ sep ++ localName) = server :: splitUS localName :=
    splitUS_append_sep server localName h1 h2
  obtain ⟨p, ps, hps⟩ : ∃ p ps, splitUS localName = p :: ps := by
    cases hsp : splitUS localName with
    | nil => exact absurd hsp (splitUS_ne_nil localName)
    | cons p ps => exact ⟨p, ps, rfl⟩
  rw [hps] at hsplit
  rw [parsePrefixedName_ok_of_split typ _ server p ps hsplit]
  have hjoin : joinWith sep (p :: ps) = localName := by
    rw [← hps]; exact joinWith_splitUS localName
  rw [hjoin]

/-- Witness for C2's amended theorem: a local name that itself contains the
separator still round-trips. -/
theorem parsePrefixedName_roundtrip_witness :
    parsePrefixedName (chars "time" ++ sep ++ chars "get__current") (chars "tool")
      = .ok ⟨chars "time", chars "get__current"⟩ :=
  parsePrefixedName_roundtrip (chars "tool") (chars "time") (chars "get__current")
    (by decide) (by decide)

/-- Claim C3: `parsePrefixedName` fails with the invalid-format error exactly
when the input contains no occurrence of `__` (the empty string included);
otherwise it returns the substring before the first `__` as `server` (the
returned prefix is minimal among all decompositions) and the remainder —
further `__` sequences re-inserted intact — as `name`. -/
theorem parsePrefixedName_spec (typ s : List Char) :
    (¬ List.IsInfix sep s → parsePrefixedName s typ = .error (invalidNameMsg s typ))
  ∧ (List.IsInfix sep s →
      ∃ pre rest, s = pre ++ sep ++ rest ∧
        parsePrefixedName s typ = .ok ⟨pre, rest⟩ ∧
        ∀ pre' rest', s = pre' ++ sep ++ rest' → pre.length ≤ pre'.length) := by
  constructor
  · exact parsePrefixedName_error_of_no_sep typ s
  · intro h
    have hlen : 2 ≤ (splitUS s).length := (two_le_splitUS_length_iff s).mpr h
    obtain ⟨p, q, ps, hps⟩ : ∃ p q ps, splitUS s = p :: q :: ps := by
      cases hsp : splitUS s with
      | nil => exact absurd hsp (splitUS_ne_nil s)
      | cons p rest =>
        cases rest with
        | nil => rw [hsp] at hlen; simp at hlen
        | cons q ps => exact ⟨p, q, ps, rfl⟩
    refine ⟨p, joinWith sep (q :: ps), ?_, parsePrefixedName_ok_of_split typ s p q ps hps, ?_⟩
    · have := joinWith_splitUS s
      rw [hps] at this
      show s = p ++ sep ++ joinWith sep (q :: ps)
      rw [← this]
      rfl
    · intro pre' rest' hdec
      exact splitUS_head_min s p (q :: ps) hps pre' rest' hdec

/-- Witness for C3 at concrete inputs: `"invalid"` (no separator) fails, and
`"a__b__c"` decodes with a minimal server prefix. -/
theorem parsePrefixedName_spec_witness :
    parsePrefixedName (chars "invalid") (chars "tool")
        = .error (invalidNameMsg (chars "invalid") (chars "tool"))
  ∧ ∃ pre rest, chars "a__b__c" = pre ++ sep ++ rest ∧
      parsePrefixedName (chars "a__b__c") (chars "tool") = .ok ⟨pre, rest⟩ ∧
      ∀ pre' rest', chars "a__b__c" = pre' ++ sep ++ rest' → pre.length ≤ pre'.length :=
  ⟨(parsePrefixedName_spec (chars "tool") (chars "invalid")).1 (by decide),
   (parsePrefixedName_spec (chars "tool") (chars "a__b__c")).2 (by decide)⟩

/-- Claim C10: an input beginning with the separator, such as `"__x"`, is
accepted by `parsePrefixedName` with an empty `server` component, while the
URI decoder rejects an empty server (`mcpd:///path` fails): the empty
`ServerId` is rejected by `parseResourceUri` but silently accepted by
`parsePrefixedName`. -/
theorem emptyServer_name_uri_asymmetry :
    (∀ typ x : List Char, parsePrefixedName (sep ++ x) typ = .ok ⟨[], x⟩)
  ∧ (∀ p : List Char, parseResourceUri (chars "mcpd://" ++ '/' :: p) = .error .missingPath)
  ∧ parsePrefixedName (chars "__x") (chars "tool") = .ok ⟨[], chars "x"⟩ := by
  refine ⟨?_, ?_, by decide⟩
  · intro typ x
    have hsplit : splitUS (sep ++ x) = [] :: splitUS x := splitUS_sep_cons x
    obtain ⟨p, ps, hps⟩ : ∃ p ps, splitUS x = p :: ps := by
      cases hsp : splitUS x with
      | nil => exact absurd hsp (splitUS_ne_nil x)
      | cons p ps => exact ⟨p, ps, rfl⟩
    rw [hps] at hsplit
    rw [parsePrefixedName_ok_of_split typ _ [] p ps hsplit]
    have hjoin : joinWith sep (p :: ps) = x := by
      rw [← hps]; exact joinWith_splitUS x
    rw [hjoin]
  · intro p
    simp [parseResourceUri, isPrefixOf_append_self, drop_scheme, indexOfSlash]

/-! ### Properties of the aggregation layer -/

/-- Shared membership description of the health filter. -/
theorem mem_getHealthyServers (client : McpdClient)
    (serverNames : Option (List (List Char))) (x : List Char) :
    x ∈ getHealthyServers client serverNames ↔
      x ∈ serverNames.getD client.serverList ∧
        ∃ h, client.healthMap.lookup x = some h ∧ h.status = chars "ok" := by
  simp only [getHealthyServers, List.mem_filter]
  constructor
  · rintro ⟨hmem, hp⟩
    refine ⟨hmem, ?_⟩
    cases hl : client.healthMap.lookup x with
    | none => rw [hl] at hp; simp at hp
    | some h =>
      rw [hl] at hp
      simp only [beq_iff_eq] at hp
      exact ⟨h, rfl, hp⟩
  · rintro ⟨hmem, h, hl, hst⟩
    refine ⟨hmem, ?_⟩
    rw [hl]
    simp [hst]

theorem exceptMap_ok {ε α β : Type} (f : α → β) (a : α) :
    (Except.ok a : Except ε α).map f = .ok (f a) := rfl

theorem exceptMap_error {ε α β : Type} (f : α → β) (e : ε) :
    (Except.error e : Except ε α).map f = .error e := rfl

theorem exceptToOption_ok {ε α : Type} (a : α) :
    (Except.ok a : Except ε α).toOption = some a := rfl

theorem exceptToOption_error {ε α : Type} (e : ε) :
    (Except.error e : Except ε α).toOption = none := rfl

/-- Shared shape of the four `Promise.allSettled` aggregations: keeping the
fulfilled results and flat-mapping the namespacing over them is the same as
flat-mapping over the healthy servers, each rejected server contributing
nothing. -/
theorem settledFlat {β γ : Type} (hs : List (List Char))
    (f : List Char → Except SettledErr (List β)) (g : List Char → β → γ) :
    ((hs.map (fun s => (f s).map (fun xs => (s, xs)))).filterMap Except.toOption).flatMap
        (fun r => r.2.map (fun x => g r.1 x))
      = hs.flatMap (perServerItems f g) := by
  induction hs with
  | nil => rfl
  | cons s hs ih =>
    cases hfs : f s with
    | ok xs =>
      simp only [List.map_cons, hfs, exceptMap_ok, List.filterMap_cons, exceptToOption_ok,
        List.flatMap_cons, ih, perServerItems]
    | error e =>
      simp only [List.map_cons, hfs, exceptMap_error, List.filterMap_cons, exceptToOption_error,
        List.flatMap_cons, ih, perServerItems]
      exact (List.nil_append _).symm

/-- The four aggregates, rewritten as a flat map of per-server contributions
(shared by the claims about partial failure and about namespacing). -/
theorem aggregateTools_eq (client : McpdClient) (serverNames : Option (List (List Char))) :
    aggregateTools client serverNames
      = (getHealthyServers client serverNames).flatMap
          (perServerItems client.getTools namespaceTool) := by
  simp only [aggregateTools]
  exact settledFlat (getHealthyServers client serverNames) client.getTools namespaceTool

theorem aggregatePrompts_eq (client : McpdClient) (serverNames : Option (List (List Char))) :
    aggregatePrompts client serverNames
      = (getHealthyServers client serverNames).flatMap
          (perServerItems client.getPrompts namespacePrompt) := by
  simp only [aggregatePrompts]
  exact settledFlat (getHealthyServers client serverNames) client.getPrompts namespacePrompt

theorem aggregateResources_eq (client : McpdClient) (serverNames : Option (List (List Char))) :
    aggregateResources client serverNames
      = (getHealthyServers client serverNames).flatMap
          (perServerItems client.getResources namespaceResource) := by
  simp only [aggregateResources]
  exact settledFlat (getHealthyServers client serverNames) client.getResources namespaceResource

theorem aggregateResourceTemplates_eq (client : McpdClient)
    (serverNames : Option (List (List Char))) :
    aggregateResourceTemplates client serverNames
      = (getHealthyServers client serverNames).flatMap
          (perServerItems client.getResourceTemplates namespaceTemplate) := by
  simp only [aggregateResourceTemplates]
  exact settledFlat (getHealthyServers client serverNames) client.getResourceTemplates namespaceTemplate

/-- Claim C5: the health filter returns exactly those candidates whose
recorded status is the exact string `"ok"` (any other status, or absence from
the health map, excludes the candidate), in the candidates' original order;
concretely, candidates `{A: ok, B: timeout, C: ok}` yield `[A, C]`. -/
theorem getHealthyServers_spec :
    (∀ (client : McpdClient) (serverNames : Option (List (List Char))) (x : List Char),
      x ∈ getHealthyServers client serverNames ↔
        x ∈ serverNames.getD client.serverList ∧
          ∃ h, client.healthMap.lookup x = some h ∧ h.status = chars "ok")
  ∧ (∀ (client : McpdClient) (serverNames : Option (List (List Char))),
      (getHealthyServers client serverNames).Sublist (serverNames.getD client.serverList))
  ∧ getHealthyServers sampleClient (some [chars "A", chars "B", chars "C"])
      = [chars "A", chars "C"] := by
  refine ⟨mem_getHealthyServers, ?_, by decide⟩
  intro client serverNames
  simp only [getHealthyServers]
  exact List.filter_sublist _

/-- Claim C6: an explicitly supplied server list is used verbatim as the
candidate set — the result never depends on `client.serverList`, i.e.
`listServers` is not consulted — yet the candidates are still filtered by the
health snapshot; concretely, explicitly listing the unhealthy server `B`
yields nothing. -/
theorem getHealthyServers_explicit_list :
    (∀ (c c' : McpdClient) (l : List (List Char)), c.healthMap = c'.healthMap →
      getHealthyServers c (some l) = getHealthyServers c' (some l))
  ∧ (∀ (c : McpdClient) (l : List (List Char)) (x : List Char),
      x ∈ getHealthyServers c (some l) ↔
        x ∈ l ∧ ∃ h, c.healthMap.lookup x = some h ∧ h.status = chars "ok")
  ∧ getHealthyServers sampleClient (some [chars "B"]) = [] := by
  refine ⟨?_, ?_, by decide⟩
  · intro c c' l hh
    simp only [getHealthyServers, Option.getD_some, hh]
  · intro c l x
    simpa using mem_getHealthyServers c (some l) x

/-- Witness for C6's health-map-independence conjunct: changing `serverList`
(and everything but the health map) does not change the result for an
explicit list. -/
theorem getHealthyServers_explicit_list_witness :
    getHealthyServers sampleClient (some [chars "A", chars "B"])
      = getHealthyServers { sampleClient with serverList := [] } (some [chars "A", chars "B"]) :=
  getHealthyServers_explicit_list.1 sampleClient
    { sampleClient with serverList := [] } [chars "A", chars "B"] rfl

/-- Claim C7: each aggregate function returns exactly the namespaced items of
the servers whose listing resolved — a rejected server contributes nothing
and never makes the aggregate fail — and with zero eligible servers the
result is the empty list, not an error.  Concretely, with eligible servers
`A` (resolves with 1 tool) and `C` (rejects), exactly one namespaced tool is
returned. -/
theorem aggregate_partial_failure :
    (∀ (client : McpdClient) (serverNames : Option (List (List Char))),
      aggregateTools client serverNames
        = (getHealthyServers client serverNames).flatMap
            (perServerItems client.getTools namespaceTool))
  ∧ (∀ (client : McpdClient) (serverNames : Option (List (List Char))),
      aggregatePrompts client serverNames
        = (getHealthyServers client serverNames).flatMap
            (perServerItems client.getPrompts namespacePrompt))
  ∧ (∀ (client : McpdClient) (serverNames : Option (List (List Char))),
      aggregateResources client serverNames
        = (getHealthyServers client serverNames).flatMap
            (perServerItems client.getResources namespaceResource))
  ∧ (∀ (client : McpdClient) (serverNames : Option (List (List Char))),
      aggregateResourceTemplates client serverNames
        = (getHealthyServers client serverNames).flatMap
            (perServerItems client.getResourceTemplates namespaceTemplate))
  ∧ (∀ client : McpdClient,
      aggregateTools client (some []) = [] ∧ aggregatePrompts client (some []) = []
        ∧ aggregateResources client (some []) = []
        ∧ aggregateResourceTemplates client (some []) = [])
  ∧ aggregateTools sampleClient none
      = [⟨chars "A" ++ sep ++ chars "t1", some (chars "Tool 1"), chars "schema1"⟩] := by
  refine ⟨aggregateTools_eq, aggregatePrompts_eq, aggregateResources_eq,
    aggregateResourceTemplates_eq, ?_, by decide⟩
  intro client
  exact ⟨rfl, rfl, rfl, rfl⟩

/-- Claim C9: namespacing rewrites only the `name` field (and, for resources,
the `uri` field): every aggregated item arises from a backend item of a
healthy server with its other fields (description, inputSchema, arguments,
uriTemplate, mimeType) carried through unchanged, and every aggregated
resource carries `_serverName` equal to its owning server and `_originalUri`
equal to the backend's original un-namespaced uri. -/
theorem aggregate_rewrites_only_name :
    (∀ (client : McpdClient) (serverNames : Option (List (List Char))) (t : Tool),
      t ∈ aggregateTools client serverNames →
        ∃ s tools tool, s ∈ getHealthyServers client serverNames ∧
          client.getTools s = .ok tools ∧ tool ∈ tools ∧
          t.name = s ++ sep ++ tool.name ∧ t.description = tool.description ∧
          t.inputSchema = tool.inputSchema)
  ∧ (∀ (client : McpdClient) (serverNames : Option (List (List Char))) (p : Prompt),
      p ∈ aggregatePrompts client serverNames →
        ∃ s prompts prompt, s ∈ getHealthyServers client serverNames ∧
          client.getPrompts s = .ok prompts ∧ prompt ∈ prompts ∧
          p.name = s ++ sep ++ prompt.name ∧ p.description = prompt.description ∧
          p.arguments = prompt.arguments)
  ∧ (∀ (client : McpdClient) (serverNames : Option (List (List Char))) (r : AggregatedResource),
      r ∈ aggregateResources client serverNames →
        ∃ s resources resource, s ∈ getHealthyServers client serverNames ∧
          client.getResources s = .ok resources ∧ resource ∈ resources ∧
          r.uri = encodeResourceUri s resource.uri ∧ r.name = s ++ sep ++ resource.name ∧
          r.description = resource.description ∧ r.mimeType = resource.mimeType ∧
          r._serverName = s ∧ r._originalUri = resource.uri)
  ∧ (∀ (client : McpdClient) (serverNames : Option (List (List Char))) (t : ResourceTemplate),
      t ∈ aggregateResourceTemplates client serverNames →
        ∃ s templates template, s ∈ getHealthyServers client serverNames ∧
          client.getResourceTemplates s = .ok templates ∧ template ∈ templates ∧
          t.name = s ++ sep ++ template.name ∧ t.uriTemplate = template.uriTemplate ∧
          t.description = template.description ∧ t.mimeType = template.mimeType)
  ∧ aggregateResources sampleClient none
      = [⟨encodeResourceUri (chars "A") (chars "file:///test.txt"),
          chars "A" ++ sep ++ chars "test_file", some (chars "A test file"),
          some (chars "text/plain"), chars "A", chars "file:///test.txt"⟩] := by
  refine ⟨?_, ?_, ?_, ?_, by decide⟩
  · intro client serverNames t ht
    rw [aggregateTools_eq] at ht
    obtain ⟨s, hs, hmem⟩ := List.mem_flatMap.mp ht
    cases hts : client.getTools s with
    | error e =>
      simp only [perServerItems, hts] at hmem
      exact absurd hmem (List.not_mem_nil _)
    | ok tools =>
      simp only [perServerItems, hts] at hmem
      obtain ⟨tool, htool, rfl⟩ := List.mem_map.mp hmem
      exact ⟨s, tools, tool, hs, hts, htool, rfl, rfl, rfl⟩
  · intro client serverNames p hp
    rw [aggregatePrompts_eq] at hp
    obtain ⟨s, hs, hmem⟩ := List.mem_flatMap.mp hp
    cases hts : client.getPrompts s with
    | error e =>
      simp only [perServerItems, hts] at hmem
      exact absurd hmem (List.not_mem_nil _)
    | ok prompts =>
      simp only [perServerItems, hts] at hmem
      obtain ⟨prompt, hprompt, rfl⟩ := List.mem_map.mp hmem
      exact ⟨s, prompts, prompt, hs, hts, hprompt, rfl, rfl, rfl⟩
  · intro client serverNames r hr
    rw [aggregateResources_eq] at hr
    obtain ⟨s, hs, hmem⟩ := List.mem_flatMap.mp hr
    cases hts : client.getResources s with
    | error e =>
      simp only [perServerItems, hts] at hmem
      exact absurd hmem (List.not_mem_nil _)
    | ok resources =>
      simp only [perServerItems, hts] at hmem
      obtain ⟨resource, hresource, rfl⟩ := List.mem_map.mp hmem
      exact ⟨s, resources, resource, hs, hts, hresource, rfl, rfl, rfl, rfl, rfl, rfl⟩
  · intro client serverNames t ht
    rw [aggregateResourceTemplates_eq] at ht
    obtain ⟨s, hs, hmem⟩ := List.mem_flatMap.mp ht
    cases hts : client.getResourceTemplates s with
    | error e =>
      simp only [perServerItems, hts] at hmem
      exact absurd hmem (List.not_mem_nil _)
    | ok templates =>
      simp only [perServerItems, hts] at hmem
      obtain ⟨template, htemplate, rfl⟩ := List.mem_map.mp hmem
      exact ⟨s, templates, template, hs, hts, htemplate, rfl, rfl, rfl, rfl⟩

/-! ### Properties of the tools/call handler -/

theorem translateToolError_isError (fullToolName : List Char) (e : McpdError) :
    (translateToolError fullToolName e).isError = true := by
  cases e <;> rfl

theorem isInfix_self (x : List Char) : List.IsInfix x x :=
  ⟨[], [], by simp⟩

theorem isInfix_append_left {x a : List Char} (b : List Char)
    (h : List.IsInfix x a) : List.IsInfix x (a ++ b) := by
  obtain ⟨u, v, huv⟩ := h
  exact ⟨u, v ++ b, by rw [← huv]; simp⟩

theorem isInfix_append_right (a : List Char) {x b : List Char}
    (h : List.IsInfix x b) : List.IsInfix x (a ++ b) := by
  obtain ⟨u, v, huv⟩ := h
  exact ⟨a ++ u, v, by rw [← huv]; simp⟩

/-- Every element of a joined list is an infix of the join. -/
theorem isInfix_joinWith {s : List Char} {ps : List (List Char)} {x : List Char}
    (h : x ∈ ps) : List.IsInfix x (joinWith s ps) := by
  induction ps with
  | nil => simp at h
  | cons p ps ih =>
    cases ps with
    | nil =>
      simp at h
      subst h
      exact isInfix_self x
    | cons q ps' =>
      rcases List.mem_cons.mp h with hx | hmem
      · subst hx
        show List.IsInfix x (x ++ s ++ joinWith s (q :: ps'))
        exact ⟨[], s ++ joinWith s (q :: ps'), by simp⟩
      · obtain ⟨u, v, huv⟩ := ih hmem
        show List.IsInfix x (p ++ s ++ joinWith s (q :: ps'))
        exact ⟨p ++ s ++ u, v, by rw [← huv]; simp⟩

/-- The text produced for a `ToolExecutionError` with a non-empty nested
error list. -/
theorem translateToolError_execution_text (fullToolName msg : List Char)
    (errs : List ApiError) (hpos : 0 < errs.length) :
    (translateToolError fullToolName (.toolExecutionError msg (some ⟨some errs⟩))).text
      = (chars "Tool '" ++ fullToolName ++ chars "' execution failed: " ++ msg)
        ++ (chars "\n\nValidation errors:\n"
          ++ joinWith (chars "\n")
              (errs.map (fun e => chars "  " ++ e.location ++ chars ": " ++ e.message))) := by
  simp [translateToolError, hpos]

/-- Claim C8: the tools/call handler always produces a structured response —
a non-error response arises only from a successful parse and a successful
backend call; on a `ToolExecutionError` with nested field errors the response
text contains each error's location and message and the error flag is set;
and a name lacking the `__` separator produces an error response that is
independent of the backend (no backend call is consulted).  The closed
conjunct evaluates the `ToolExecutionError` path concretely. -/
theorem handleCallTool_spec :
    (∀ (client : McpdClient) (fullName : List Char),
        (handleCallTool client fullName).isError = false →
        ∃ parsed result,
          parsePrefixedName fullName (chars "tool") = .ok parsed ∧
          client.callTool parsed.server parsed.name = .ok result ∧
          handleCallTool client fullName = ⟨result, false⟩)
  ∧ (∀ (client : McpdClient) (fullName : List Char) (parsed : ParsedName)
        (msg : List Char) (errs : List ApiError),
        parsePrefixedName fullName (chars "tool") = .ok parsed →
        client.callTool parsed.server parsed.name
            = .error (.toolExecutionError msg (some ⟨some errs⟩)) →
        (handleCallTool client fullName).isError = true ∧
        ∀ e ∈ errs, List.IsInfix e.location (handleCallTool client fullName).text ∧
          List.IsInfix e.message (handleCallTool client fullName).text)
  ∧ (∀ (c c' : McpdClient) (fullName : List Char),
        ¬ List.IsInfix sep fullName →
        handleCallTool c fullName = handleCallTool c' fullName ∧
        (handleCallTool c fullName).isError = true)
  ∧ handleCallTool sampleClient (chars "git__push")
      = ⟨chars "Tool 'git__push' execution failed: boom\n\nValidation errors:\n  body.x: required",
          true⟩ := by
  refine ⟨?_, ?_, ?_, by decide⟩
  · intro client fullName hfalse
    cases hp : parsePrefixedName fullName (chars "tool") with
    | error msg =>
      exfalso
      have hh : handleCallTool client fullName = translateToolError fullName (.other msg) := by
        simp [handleCallTool, hp]
      rw [hh, translateToolError_isError] at hfalse
      simp at hfalse
    | ok parsed =>
      cases hc : client.callTool parsed.server parsed.name with
      | ok result =>
        exact ⟨parsed, result, rfl, hc, by simp [handleCallTool, hp, hc]⟩
      | error e =>
        exfalso
        have hh : handleCallTool client fullName = translateToolError fullName e := by
          simp [handleCallTool, hp, hc]
        rw [hh, translateToolError_isError] at hfalse
        simp at hfalse
  · intro client fullName parsed msg errs hp hc
    have hh : handleCallTool client fullName
        = translateToolError fullName (.toolExecutionError msg (some ⟨some errs⟩)) := by
      simp [handleCallTool, hp, hc]
    rw [hh]
    refine ⟨translateToolError_isError _ _, ?_⟩
    intro e he
    have hpos : 0 < errs.length := List.length_pos.mpr (List.ne_nil_of_mem he)
    rw [translateToolError_execution_text fullName msg errs hpos]
    have helem : List.IsInfix (chars "  " ++ e.location ++ chars ": " ++ e.message)
        (joinWith (chars "\n")
          (errs.map (fun e => chars "  " ++ e.location ++ chars ": " ++ e.message))) :=
      isInfix_joinWith (List.mem_map_of_mem _ he)
    constructor
    · refine isInfix_append_right _ (isInfix_append_right _ ((?_ : List.IsInfix _ _).trans helem))
      exact ⟨chars "  ", chars ": " ++ e.message, by simp⟩
    · refine isInfix_append_right _ (isInfix_append_right _ ((?_ : List.IsInfix _ _).trans helem))
      exact ⟨chars "  " ++ e.location ++ chars ": ", [], by simp⟩
  · intro c c' fullName hno
    have hp : parsePrefixedName fullName (chars "tool")
        = .error (invalidNameMsg fullName (chars "tool")) :=
      parsePrefixedName_error_of_no_sep (chars "tool") fullName hno
    constructor
    · simp [handleCallTool, hp]
    · have hh : handleCallTool c fullName
          = translateToolError fullName (.other (invalidNameMsg fullName (chars "tool"))) := by
        simp [handleCallTool, hp]
      rw [hh]
      exact translateToolError_isError _ _

example : splitUS (chars "a__b__c") = [chars "a", chars "b", chars "c"] := by decide
example : splitUS (chars "a____b") = [chars "a", [], chars "b"] := by decide
example : splitUS (chars "") = [[]] := by decide
example : parsePrefixedName (chars "time__get_current_time") (chars "tool")
    = .ok ⟨chars "time", chars "get_current_time"⟩ := by decide
example : parseResourceUri (chars "mcpd://time/clock/utc")
    = .ok ⟨chars "time", chars "clock/utc"⟩ := by decide
example : parseResourceUri (chars "mcpd://server") = .error .missingPath := by decide
example : parseResourceUri (chars "mcpd:///path") = .error .missingPath := by decide
example : parseResourceUri (chars "mcpd://server/") = .ok ⟨chars "server", []⟩ := by decide
example : parseResourceUriLegacy (chars "mcpd:///path") = .ok ⟨[], chars "path"⟩ := by decide

end McpdProxy
